import Mathlib

/-!
Shallow embedding of the lexer utilities of rowan-tools
(src/src/lexer/mod.rs and src/src/lexer/consumed.rs).

Strings are modelled as lists of characters; byte positions and
TextUnit values are natural numbers counting UTF-8 bytes.  An
operation that can panic in Rust (slicing off a code-point boundary,
a failed assertion, an arithmetic underflow in debug mode) is
modelled with Option or a dedicated `fatal` constructor: `none` /
`fatal` is the panic.  A Rust function that mutates `&mut State`
becomes a pure function returning the new state.
-/

namespace RowanTools

/-- UTF-8 byte length of a character list; models `TextUnit::of_str`. -/
def utf8Len : List Char → Nat
  | [] => 0
  | c :: rest => c.utf8Size + utf8Len rest

/-- The lexer error enum of src/src/lexer/mod.rs. -/
inductive Error where
  | UnexpectedInput
  | UnexpectedEOF
deriving DecidableEq

/-- `Consumed` of src/src/lexer/consumed.rs: character count and byte
count of one consumption operation. -/
structure Consumed where
  chars : Nat
  bytes : Nat
deriving DecidableEq

/-- Models `Consumed::zero`. -/
def Consumed.zero : Consumed := ⟨0, 0⟩

/-- Models `Consumed::any`: true iff a non-zero number of bytes was consumed. -/
def Consumed.any (c : Consumed) : Bool := decide (0 < c.bytes)

/-- Models `Consumed::at_least`. -/
def Consumed.at_least (c : Consumed) (n : Nat) : Except Error Consumed :=
  if c.chars ≥ n then .ok c else .error .UnexpectedInput

/-- Models `Consumed::at_most`. -/
def Consumed.at_most (c : Consumed) (n : Nat) : Except Error Consumed :=
  if c.chars ≤ n then .ok c else .error .UnexpectedInput

/-- The `FromIterator<char>` impl for `Consumed`: fold over the
characters, counting one char and `utf8Size` bytes per element. -/
def Consumed.from_iter (l : List Char) : Consumed :=
  l.foldl (fun acc c => ⟨acc.chars + 1, acc.bytes + c.utf8Size⟩) ⟨0, 0⟩

/-- Drop `n` bytes from the front of a character list; models the Rust
byte slice `&s[n..]`, which panics (here: `none`) when `n` does not
land on a code-point boundary or exceeds the byte length. -/
def dropBytes : Nat → List Char → Option (List Char)
  | 0, l => some l
  | _ + 1, [] => none
  | n + 1, c :: rest =>
    if c.utf8Size ≤ n + 1 then dropBytes (n + 1 - c.utf8Size) rest else none

/-- Take the first `n` bytes of a character list; models `&s[..n]`,
panicking (`none`) under the same conditions as `dropBytes`. -/
def takeBytes : Nat → List Char → Option (List Char)
  | 0, _ => some []
  | _ + 1, [] => none
  | n + 1, c :: rest =>
    if c.utf8Size ≤ n + 1 then (takeBytes (n + 1 - c.utf8Size) rest).map (fun p => c :: p)
    else none

/-- Models `State` of src/src/lexer/mod.rs: a wrapper around the remaining
`&str`.  The field `ptr` is the memory address of the first byte of
that slice (`self.input.as_ptr()` in the source), which the `Sub`
impl inspects; `input` is the slice contents. -/
structure State where
  ptr : Nat
  input : List Char
deriving DecidableEq

/-- Models `State::new`, carrying the address of the slice it wraps. -/
def State.new (ptr : Nat) (input : List Char) : State := ⟨ptr, input⟩

/-- Models `State::remaining`. -/
def State.remaining (s : State) : List Char := s.input

/-- Models `State::peek`: first character of the remaining input, or
`UnexpectedEOF`. -/
def State.peek (s : State) : Except Error Char :=
  match s.remaining with
  | [] => .error .UnexpectedEOF
  | c :: _ => .ok c

/-- Models `State::consume`: `self.input = &self.input[len..]`, a panic
(`none`) for an offset that breaks between code points or lies
outside the string. -/
def State.consume (s : State) (len : Nat) : Option State :=
  (dropBytes len s.input).map (fun rest => ⟨s.ptr + len, rest⟩)

/-- Models `State::bump`: peek then consume one character, panicking
(`none`) at end of input (the source `expect`). -/
def State.bump (s : State) : Option State :=
  match s.peek with
  | .error _ => none
  | .ok c => s.consume c.utf8Size

/-- Models `State::take`: if the remaining input starts with the literal,
consume its byte length and collect its characters into a `Consumed`;
otherwise return `Consumed::zero` and leave the state unchanged. -/
def State.take (s : State) (lit : List Char) : Option (Consumed × State) :=
  if lit.isPrefixOf s.input then
    (s.consume (utf8Len lit)).map (fun s2 => (Consumed.from_iter lit, s2))
  else
    some (Consumed.zero, s)

/-- Models `State::take_while`: collect the maximal prefix satisfying the
predicate, then consume its byte count. -/
def State.take_while (s : State) (p : Char → Bool) : Option (Consumed × State) :=
  let consumed := Consumed.from_iter (s.input.takeWhile p)
  (s.consume consumed.bytes).map (fun s2 => (consumed, s2))

/-- Unsigned 32-bit subtraction as it behaves in a debug build: panics (`none`)
on underflow.  Models `TextUnit - TextUnit` inside `<State as Sub>::sub`. -/
def checkedSub (a b : Nat) : Option Nat :=
  if b ≤ a then some (a - b) else none

/-- Models `<State as Sub>::sub` of src/src/lexer/mod.rs, translated line by
line.  The source reads

  let self_ptr = self.input.as_ptr() as usize;
  let prev_ptr = self.input.as_ptr() as usize;

so `prev_ptr` is assigned from SELF's pointer, not from `prev` — this
is the latent defect noted in the design notes.  A failed assertion
is `none`. -/
def State.sub (self prev : State) : Option Nat :=
  let self_ptr := self.ptr
  let prev_ptr := self.ptr
  if self_ptr ≥ prev_ptr ∧ self_ptr < prev_ptr + utf8Len prev.remaining then
    checkedSub (utf8Len prev.remaining) (utf8Len self.remaining)
  else
    none

/-- The `Attach` impl for `Result<T, Error>` where `T: From<Error>`:
on success pair the value with the length, on error convert the error
through `From` (here an explicit `fromError` function) and pair it
with the same length. -/
def attachResult {T : Type} (fromError : Error → T) : Except Error T → Nat → T × Nat
  | .ok success, len => (success, len)
  | .error err, len => (fromError err, len)

/-- Result of one `wrap` call: `fatal` is a panic (failed assertion or
underflow), `eos` is the `None` returned on empty input, `token` is
`Some` of the attached output. -/
inductive WrapRes (α : Type) where
  | fatal
  | eos
  | token (t : α)
deriving DecidableEq

/-- Models `wrap` of src/src/lexer/mod.rs.  The classifier `f` is a pure
function from the start state to (its return value, the mutated
state); `att` is the `Attach` instance.  Steps as in the source:
return `eos` on empty input, run `f`, compute `state - start` via the
`Sub` impl, treat a zero length as fatal (the debug assertion), and
attach the length. -/
def wrap {R Out : Type} (att : R → Nat → Out) (f : State → R × State) (start : State) :
    WrapRes Out :=
  if start.remaining.isEmpty then .eos
  else
    let out := f start
    match State.sub out.2 start with
    | none => .fatal
    | some len =>
      if len = 0 then .fatal
      else .token (att out.1 len)

/-- Result of driving an iterator for a bounded amount of fuel:
`fatal` is a panic in some step, `more` means the fuel ran out with
the elements collected so far, `done` means the underlying function
returned `None` (end of stream) after yielding the collected
elements. -/
inductive RunRes (α : Type) where
  | fatal
  | more (ts : List α)
  | done (ts : List α)
deriving DecidableEq

/-- Models `into_iter` of src/src/lexer/mod.rs, with explicit fuel: take a
token from the remaining string, exit on `None`, advance the
remaining slice by the token's length (`&remaining[len..]`, a panic
— `fatal` — off a boundary), repeat.  `lenOf` is the `Token::len`
method; `f` may itself panic, hence its `WrapRes` result type. -/
def into_iter {T : Type} (lenOf : T → Nat) (f : List Char → WrapRes T) :
    Nat → List Char → RunRes T
  | 0, _ => .more []
  | fuel + 1, remaining =>
    match f remaining with
    | .fatal => .fatal
    | .eos => .done []
    | .token t =>
      match dropBytes (lenOf t) remaining with
      | none => .fatal
      | some rest =>
        match into_iter lenOf f fuel rest with
        | .fatal => .fatal
        | .more ts => .more (t :: ts)
        | .done ts => .done (t :: ts)

/-- Models `string_slices` of src/src/lexer/mod.rs over a materialized token
list: keep a running remaining slice, and for each `(token, len)`
yield `(token, &remaining[..len])` and advance by `&remaining[len..]`;
either slicing panics (`none`) off a boundary or past the end. -/
def string_slices {T : Type} : List Char → List (T × Nat) → Option (List (T × List Char))
  | _, [] => some []
  | remaining, (t, len) :: rest =>
    match takeBytes len remaining, dropBytes len remaining with
    | some slice, some rem2 => (string_slices rem2 rest).map (fun l => (t, slice) :: l)
    | _, _ => none

/-- The full pipeline used by the examples:
`into_iter(input, |s| wrap(s, f))` with the tuple `Token` impl
(`len` is the second component). -/
def scan {R T : Type} (att : R → Nat → T × Nat) (f : State → R × State)
    (fuel : Nat) (input : List Char) : RunRes (T × Nat) :=
  into_iter Prod.snd (fun rem => wrap att f (State.new 0 rem)) fuel input

/-! ### Helper lemmas -/

theorem utf8Len_append (p s : List Char) : utf8Len (p ++ s) = utf8Len p + utf8Len s := by
  induction p with
  | nil => simp [utf8Len]
  | cons c rest ih => simp [utf8Len, ih, Nat.add_assoc]

theorem utf8Len_pos {l : List Char} (h : l ≠ []) : 0 < utf8Len l := by
  match l with
  | [] => exact absurd rfl h
  | c :: rest =>
    have := Char.utf8Size_pos c
    simp only [utf8Len]
    omega

theorem utf8Len_eq_zero {l : List Char} (h : utf8Len l = 0) : l = [] := by
  by_contra hne
  have := utf8Len_pos hne
  omega

theorem dropBytes_cons (n : Nat) (hn : n ≠ 0) (c : Char) (rest : List Char) :
    dropBytes n (c :: rest) =
      if c.utf8Size ≤ n then dropBytes (n - c.utf8Size) rest else none := by
  match n with
  | 0 => exact absurd rfl hn
  | m + 1 => rfl

theorem takeBytes_cons (n : Nat) (hn : n ≠ 0) (c : Char) (rest : List Char) :
    takeBytes n (c :: rest) =
      if c.utf8Size ≤ n then (takeBytes (n - c.utf8Size) rest).map (fun p => c :: p)
      else none := by
  match n with
  | 0 => exact absurd rfl hn
  | m + 1 => rfl

theorem dropBytes_append (p s : List Char) : dropBytes (utf8Len p) (p ++ s) = some s := by
  induction p with
  | nil => simp [utf8Len, dropBytes]
  | cons c rest ih =>
    have hsz := Char.utf8Size_pos c
    have hne : utf8Len (c :: rest) ≠ 0 := by
      simp only [utf8Len]; omega
    rw [List.cons_append, dropBytes_cons _ hne]
    have hle : c.utf8Size ≤ utf8Len (c :: rest) := by
      simp only [utf8Len]; omega
    rw [if_pos hle]
    have : utf8Len (c :: rest) - c.utf8Size = utf8Len rest := by
      simp only [utf8Len]; omega
    rw [this]
    exact ih

theorem takeBytes_append (p s : List Char) : takeBytes (utf8Len p) (p ++ s) = some p := by
  induction p with
  | nil => simp [utf8Len, takeBytes]
  | cons c rest ih =>
    have hsz := Char.utf8Size_pos c
    have hne : utf8Len (c :: rest) ≠ 0 := by
      simp only [utf8Len]; omega
    rw [List.cons_append, takeBytes_cons _ hne]
    have hle : c.utf8Size ≤ utf8Len (c :: rest) := by
      simp only [utf8Len]; omega
    rw [if_pos hle]
    have : utf8Len (c :: rest) - c.utf8Size = utf8Len rest := by
      simp only [utf8Len]; omega
    rw [this, ih]
    rfl

theorem dropBytes_eq_some {n : Nat} {l s : List Char} :
    dropBytes n l = some s ↔ ∃ p, l = p ++ s ∧ utf8Len p = n := by
  constructor
  · intro h
    induction l generalizing n with
    | nil =>
      match n with
      | 0 =>
        simp only [dropBytes, Option.some.injEq] at h
        exact ⟨[], by simp [h], rfl⟩
      | m + 1 => simp [dropBytes] at h
    | cons c rest ih =>
      match n with
      | 0 =>
        simp only [dropBytes, Option.some.injEq] at h
        exact ⟨[], by simp [h], rfl⟩
      | m + 1 =>
        simp only [dropBytes] at h
        by_cases hle : c.utf8Size ≤ m + 1
        · rw [if_pos hle] at h
          obtain ⟨p, hp, hlen⟩ := ih h
          refine ⟨c :: p, by simp [hp], ?_⟩
          simp only [utf8Len]
          omega
        · rw [if_neg hle] at h
          exact absurd h (by simp)
  · rintro ⟨p, rfl, rfl⟩
    exact dropBytes_append p s

theorem takeBytes_eq_some {n : Nat} {l p : List Char} :
    takeBytes n l = some p ↔ ∃ s, l = p ++ s ∧ utf8Len p = n := by
  constructor
  · intro h
    induction l generalizing n p with
    | nil =>
      match n with
      | 0 =>
        simp only [takeBytes, Option.some.injEq] at h
        exact ⟨[], by simp [← h], by simp [← h, utf8Len]⟩
      | m + 1 => simp [takeBytes] at h
    | cons c rest ih =>
      match n with
      | 0 =>
        simp only [takeBytes, Option.some.injEq] at h
        exact ⟨c :: rest, by simp [← h], by simp [← h, utf8Len]⟩
      | m + 1 =>
        simp only [takeBytes] at h
        by_cases hle : c.utf8Size ≤ m + 1
        · rw [if_pos hle] at h
          rw [Option.map_eq_some'] at h
          obtain ⟨q, hq, hcq⟩ := h
          obtain ⟨s, hs, hlen⟩ := ih hq
          refine ⟨s, by simp [← hcq, hs], ?_⟩
          simp only [← hcq, utf8Len]
          omega
        · rw [if_neg hle] at h
          exact absurd h (by simp)
  · rintro ⟨s, rfl, rfl⟩
    exact takeBytes_append p s

theorem from_iter_eq (l : List Char) : Consumed.from_iter l = ⟨l.length, utf8Len l⟩ := by
  have go : ∀ (l : List Char) (acc : Consumed),
      List.foldl (fun acc c => Consumed.mk (acc.chars + 1) (acc.bytes + c.utf8Size)) acc l =
        ⟨acc.chars + l.length, acc.bytes + utf8Len l⟩ := by
    intro l
    induction l with
    | nil => intro acc; simp [utf8Len]
    | cons c rest ih =>
      intro acc
      simp only [List.foldl_cons, ih, List.length_cons, utf8Len, Consumed.mk.injEq]
      omega
  have := go l ⟨0, 0⟩
  simpa [Consumed.from_iter] using this

theorem sub_in_wrap (st2 st : State) (h : st.input ≠ []) :
    State.sub st2 st = checkedSub (utf8Len st.input) (utf8Len st2.input) := by
  simp only [State.sub, State.remaining]
  rw [if_pos]
  refine ⟨Nat.le_refl _, ?_⟩
  have := utf8Len_pos h
  omega

theorem wrap_eos_of_empty {R Out : Type} (att : R → Nat → Out) (f : State → R × State)
    (st : State) (h : st.input = []) : wrap att f st = .eos := by
  simp [wrap, State.remaining, h]

theorem wrap_nonempty_eq {R Out : Type} (att : R → Nat → Out) (f : State → R × State)
    (st : State) (h : st.input ≠ []) :
    wrap att f st =
      match checkedSub (utf8Len st.input) (utf8Len (f st).2.input) with
      | none => .fatal
      | some len => if len = 0 then .fatal else .token (att (f st).1 len) := by
  have hempty : st.remaining.isEmpty = false := by
    simp only [State.remaining]
    cases hst : st.input with
    | nil => exact absurd hst h
    | cons c cs => rfl
  simp only [wrap, hempty, Bool.false_eq_true, if_false]
  rw [sub_in_wrap _ _ h]

theorem wrap_token_eq {R Out : Type} (att : R → Nat → Out) (f : State → R × State)
    (st : State) (h : st.input ≠ [])
    (hle : utf8Len (f st).2.input ≤ utf8Len st.input)
    (hne : utf8Len st.input - utf8Len (f st).2.input ≠ 0) :
    wrap att f st = .token (att (f st).1 (utf8Len st.input - utf8Len (f st).2.input)) := by
  rw [wrap_nonempty_eq att f st h]
  simp only [checkedSub, if_pos hle]
  rw [if_neg hne]

theorem wrap_stall_fatal {R Out : Type} (att : R → Nat → Out) (f : State → R × State)
    (st : State) (h : st.input ≠ [])
    (heq : utf8Len (f st).2.input = utf8Len st.input) :
    wrap att f st = .fatal := by
  rw [wrap_nonempty_eq att f st h]
  simp [checkedSub, heq]

theorem into_iter_succ {T : Type} (lenOf : T → Nat) (f : List Char → WrapRes T)
    (fuel : Nat) (remaining : List Char) :
    into_iter lenOf f (fuel + 1) remaining =
      match f remaining with
      | .fatal => .fatal
      | .eos => .done []
      | .token t =>
        match dropBytes (lenOf t) remaining with
        | none => .fatal
        | some rest =>
          match into_iter lenOf f fuel rest with
          | .fatal => .fatal
          | .more ts => .more (t :: ts)
          | .done ts => .done (t :: ts) := rfl

theorem string_slices_cons {T : Type} (t : T) (p s : List Char) (toks : List (T × Nat)) :
    string_slices (p ++ s) ((t, utf8Len p) :: toks) =
      (string_slices s toks).map (fun l => (t, p) :: l) := by
  simp only [string_slices, takeBytes_append, dropBytes_append]

theorem new_input (ptr : Nat) (l : List Char) : (State.new ptr l).input = l := rfl

/-- Main run lemma: under the classifier contract (the classifier
only slices its state forward, and consumes something whenever input
remains) and the attach contract (the attached length is the second
component), the pipeline terminates with at most one token per input
character, every slicing step succeeds, and the concatenation of the
slices is the input. -/
theorem scan_run {R T : Type} (att : R → Nat → T × Nat) (f : State → R × State)
    (hatt : ∀ r n, (att r n).2 = n)
    (hfwd : ∀ st : State, (f st).2.input <:+ st.input)
    (hprog : ∀ st : State, st.input ≠ [] → (f st).2.input ≠ st.input) :
    ∀ (n : Nat) (input : List Char), input.length ≤ n →
      ∃ toks slices,
        scan att f (n + 1) input = .done toks ∧
        toks.length ≤ input.length ∧
        string_slices input toks = some slices ∧
        (slices.map Prod.snd).flatten = input := by
  intro n
  induction n with
  | zero =>
    intro input hlen
    have hnil : input = [] := List.length_eq_zero.mp (Nat.le_zero.mp hlen)
    subst hnil
    exact ⟨[], [], rfl, Nat.le_refl _, rfl, rfl⟩
  | succ m ih =>
    intro input hlen
    cases input with
    | nil => exact ⟨[], [], rfl, Nat.le_refl _, rfl, rfl⟩
    | cons c cs =>
      have hne : (State.new 0 (c :: cs)).input ≠ [] := List.cons_ne_nil c cs
      obtain ⟨p, hp⟩ := hfwd (State.new 0 (c :: cs))
      have hp2 : p ++ (f (State.new 0 (c :: cs))).2.input = c :: cs := hp
      have hpne : p ≠ [] := by
        intro hnil
        subst hnil
        exact hprog _ hne (by simpa using hp2)
      have hcc := congrArg utf8Len hp2
      rw [utf8Len_append] at hcc
      have hple : utf8Len (f (State.new 0 (c :: cs))).2.input ≤ utf8Len (c :: cs) := by
        omega
      have hlenp : utf8Len (c :: cs) - utf8Len (f (State.new 0 (c :: cs))).2.input = utf8Len p := by
        omega
      have hppos : 0 < utf8Len p := utf8Len_pos hpne
      have hwrap := wrap_token_eq att f (State.new 0 (c :: cs)) hne hple
        (by rw [new_input, hlenp]; omega)
      rw [new_input, hlenp] at hwrap
      rcases htok : att (f (State.new 0 (c :: cs))).1 (utf8Len p) with ⟨tk, tl⟩
      have htl : tl = utf8Len p := by
        have h2 := hatt (f (State.new 0 (c :: cs))).1 (utf8Len p)
        rw [htok] at h2
        exact h2
      subst htl
      rw [htok] at hwrap
      have hlens := congrArg List.length hp2
      rw [List.length_append, List.length_cons] at hlens
      have hp1 : 1 ≤ p.length := by
        cases p with
        | nil => exact absurd rfl hpne
        | cons q qs => simp
      rw [List.length_cons] at hlen
      have hrl : (f (State.new 0 (c :: cs))).2.input.length ≤ m := by omega
      obtain ⟨toks', slices', hrun', htl', hsl', hfl'⟩ :=
        ih (f (State.new 0 (c :: cs))).2.input hrl
      refine ⟨(tk, utf8Len p) :: toks', (tk, p) :: slices', ?_, ?_, ?_, ?_⟩
      · simp only [scan] at hrun' ⊢
        rw [into_iter_succ]
        simp only [hwrap]
        rw [← hp2, dropBytes_append]
        simp only [hrun']
      · rw [List.length_cons, List.length_cons]
        omega
      · rw [← hp2, string_slices_cons, hsl']
        rfl
      · simp only [List.map_cons, List.flatten_cons]
        rw [hfl', hp2]

/-! ### A concrete contract-abiding classifier, used to instantiate
the theorems below at concrete inputs -/

/-- A minimal classifier: consume exactly one character and report
it.  On empty input it reports `UnexpectedEOF` and leaves the state
alone (a case `wrap` never reaches). -/
def bumpOne (st : State) : Except Error Char × State :=
  match st.input with
  | [] => (.error .UnexpectedEOF, st)
  | c :: rest => (.ok c, State.new (st.ptr + c.utf8Size) rest)

theorem attachResult_snd {T : Type} (fromError : Error → T) (r : Except Error T) (n : Nat) :
    (attachResult fromError r n).2 = n := by
  cases r <;> rfl

theorem bumpOne_fwd (st : State) : (bumpOne st).2.input <:+ st.input := by
  cases hst : st.input with
  | nil => simp [bumpOne, hst]
  | cons c rest =>
    refine ⟨[c], ?_⟩
    simp [bumpOne, hst, State.new]

theorem bumpOne_prog (st : State) (h : st.input ≠ []) : (bumpOne st).2.input ≠ st.input := by
  cases hst : st.input with
  | nil => exact absurd hst h
  | cons c rest =>
    simp only [bumpOne, hst, new_input]
    intro habs
    have := congrArg List.length habs
    simp at this

/-! ### Claim theorems -/

/-- C1.  Losslessness: for every input and every classifier driven
through `wrap`, `into_iter` and `string_slices`, concatenating in
order the consumed text of every yielded token reconstructs the
original input exactly.  The hypotheses are the classifier contract
of the spec: the attach instance pairs the value with the given
length, the classifier only slices its state forward, and it consumes
something whenever input remains. -/
theorem claim_C1_lossless {R T : Type} (att : R → Nat → T × Nat) (f : State → R × State)
    (input : List Char)
    (hatt : ∀ r n, (att r n).2 = n)
    (hfwd : ∀ st : State, (f st).2.input <:+ st.input)
    (hprog : ∀ st : State, st.input ≠ [] → (f st).2.input ≠ st.input) :
    ∃ toks slices,
      scan att f (input.length + 1) input = .done toks ∧
      string_slices input toks = some slices ∧
      (slices.map Prod.snd).flatten = input := by
  obtain ⟨toks, slices, h1, _, h3, h4⟩ :=
    scan_run att f hatt hfwd hprog input.length input (Nat.le_refl _)
  exact ⟨toks, slices, h1, h3, h4⟩

theorem claim_C1_witness :
    ∃ toks slices,
      scan (attachResult (fun _ : Error => '?')) bumpOne 3 ['a', 'b'] = .done toks ∧
      string_slices ['a', 'b'] toks = some slices ∧
      (slices.map Prod.snd).flatten = ['a', 'b'] :=
  claim_C1_lossless (attachResult (fun _ : Error => '?')) bumpOne ['a', 'b']
    (attachResult_snd _) bumpOne_fwd bumpOne_prog

/-- C2.  The claim says subtracting two states panics whenever they
originate from different buffers.  The code does not: the `Sub` impl
assigns `prev_ptr` from SELF's pointer, so the assert never inspects
`prev`'s address.  Here the two states sit at addresses 100 and 500 —
necessarily different origin buffers — yet the subtraction succeeds
and returns a distance. -/
theorem claim_C2_sub_cross_buffer :
    State.sub (State.new 100 ['a', 'a']) (State.new 500 ['z', 'z', 'z']) = some 1 := by
  decide

/-- C3.  Non-empty progress: whenever input remained before the call,
any token `wrap` yields carries a strictly positive attached length,
and a classifier that consumes nothing is a fatal assertion
(`fatal`), not a zero-length token. -/
theorem claim_C3_progress {R Out : Type} (att : R → Nat → Out) (f : State → R × State)
    (st : State) (hne : st.input ≠ []) :
    (∀ t, wrap att f st = .token t → ∃ r len, 0 < len ∧ t = att r len) ∧
    (utf8Len (f st).2.input = utf8Len st.input → wrap att f st = .fatal) := by
  constructor
  · intro t ht
    rw [wrap_nonempty_eq att f st hne] at ht
    rcases hcs : checkedSub (utf8Len st.input) (utf8Len (f st).2.input) with _ | len
    · rw [hcs] at ht
      exact absurd ht (by simp)
    · rw [hcs] at ht
      simp only [] at ht
      by_cases h0 : len = 0
      · rw [if_pos h0] at ht
        exact absurd ht (by simp)
      · rw [if_neg h0] at ht
        refine ⟨(f st).1, len, Nat.pos_of_ne_zero h0, ?_⟩
        simp only [WrapRes.token.injEq] at ht
        exact ht.symm
  · intro heq
    exact wrap_stall_fatal att f st hne heq

theorem claim_C3_witness :
    wrap (fun (u : Unit) (n : Nat) => (u, n)) (fun st => ((), st)) (State.new 0 ['a']) =
      .fatal :=
  (claim_C3_progress (fun (u : Unit) (n : Nat) => (u, n)) (fun st => ((), st))
    (State.new 0 ['a']) (List.cons_ne_nil 'a' [])).2 rfl

/-- C4.  End of stream iff exhaustion: `wrap` returns `eos` (no
token) exactly when no input remains; whenever input remains and the
classifier abides by its contract, `wrap` returns a token; and
running the sequence adapter on the empty string immediately ends
with no tokens. -/
theorem claim_C4_eos {R T : Type} (att : R → Nat → T × Nat) (f : State → R × State)
    (st : State) :
    (wrap att f st = .eos ↔ st.input = []) ∧
    (st.input ≠ [] → (f st).2.input <:+ st.input → (f st).2.input ≠ st.input →
      ∃ t, wrap att f st = .token t) ∧
    (∀ fuel : Nat,
      into_iter Prod.snd (fun rem => wrap att f (State.new 0 rem)) (fuel + 1) [] =
        .done []) := by
  refine ⟨⟨?_, ?_⟩, ?_, ?_⟩
  · intro h
    by_contra hne
    rw [wrap_nonempty_eq att f st hne] at h
    rcases hcs : checkedSub (utf8Len st.input) (utf8Len (f st).2.input) with _ | len
    · rw [hcs] at h
      exact absurd h (by simp)
    · rw [hcs] at h
      simp only [] at h
      by_cases h0 : len = 0
      · rw [if_pos h0] at h
        exact absurd h (by simp)
      · rw [if_neg h0] at h
        exact absurd h (by simp)
  · intro h
    exact wrap_eos_of_empty att f st h
  · intro hne hsuf hneq
    obtain ⟨p, hp⟩ := hsuf
    have hpne : p ≠ [] := by
      intro h0
      subst h0
      exact hneq (by simpa using hp)
    have hcc := congrArg utf8Len hp
    rw [utf8Len_append] at hcc
    have hppos := utf8Len_pos hpne
    exact ⟨_, wrap_token_eq att f st hne (by omega) (by omega)⟩
  · intro fuel
    rfl

theorem claim_C4_witness :
    ∃ t, wrap (attachResult (fun _ : Error => '?')) bumpOne (State.new 0 ['a']) = .token t :=
  (claim_C4_eos (attachResult (fun _ : Error => '?')) bumpOne (State.new 0 ['a'])).2.1
    (List.cons_ne_nil 'a' []) (bumpOne_fwd _) (bumpOne_prog _ (List.cons_ne_nil 'a' []))

/-- C5.  Attachment protocol: for any token-kind with a conversion
from the error conditions, attaching a length `n` yields the success
value paired with `n` on success, and the converted error kind paired
with the same `n` on a recoverable error. -/
theorem claim_C5_attach {T : Type} (fromError : Error → T) (t : T) (e : Error) (n : Nat) :
    attachResult fromError (.ok t) n = (t, n) ∧
    attachResult fromError (.error e) n = (fromError e, n) :=
  ⟨rfl, rfl⟩

/-- C6.  Literal match: `take` never fails; when the remaining input
starts with the literal it advances past it and records the literal's
character count and byte length; otherwise it advances nothing and
returns the zero record. -/
theorem claim_C6_take (st : State) (lit : List Char) :
    (∀ s, st.input = lit ++ s →
      State.take st lit =
        some (⟨lit.length, utf8Len lit⟩, State.new (st.ptr + utf8Len lit) s)) ∧
    ((¬ ∃ s, st.input = lit ++ s) → State.take st lit = some (Consumed.zero, st)) ∧
    (∃ out, State.take st lit = some out) := by
  have h1 : ∀ s, st.input = lit ++ s →
      State.take st lit =
        some (⟨lit.length, utf8Len lit⟩, State.new (st.ptr + utf8Len lit) s) := by
    intro s hs
    have hpre : lit.isPrefixOf (lit ++ s) = true := by
      rw [ List.isPrefixOf_iff_prefix]
      exact ⟨s, rfl⟩
    simp only [State.take, State.consume, hs]
    rw [if_pos hpre, dropBytes_append]
    simp [from_iter_eq, State.new]
  have h2 : (¬ ∃ s, st.input = lit ++ s) → State.take st lit = some (Consumed.zero, st) := by
    intro hno
    have hpre : ¬ (lit.isPrefixOf st.input = true) := by
      rw [ List.isPrefixOf_iff_prefix]
      rintro ⟨t, ht⟩
      exact hno ⟨t, ht.symm⟩
    simp only [State.take, if_neg hpre]
  refine ⟨h1, h2, ?_⟩
  by_cases hb : lit.isPrefixOf st.input = true
  · rw [ List.isPrefixOf_iff_prefix] at hb
    obtain ⟨t, ht⟩ := hb
    exact ⟨_, h1 t ht.symm⟩
  · refine ⟨(Consumed.zero, st), ?_⟩
    simp only [State.take, if_neg hb]

theorem claim_C6_witness :
    State.take (State.new 0 ['a', 'b', 'c', 'd', 'e', 'f']) ['a', 'b', 'c'] =
      some (⟨3, 3⟩, State.new 3 ['d', 'e', 'f']) ∧
    State.take (State.new 0 ['x', 'y', 'z']) ['a', 'b', 'c'] =
      some (Consumed.zero, State.new 0 ['x', 'y', 'z']) ∧
    Consumed.any ⟨3, 3⟩ = true ∧
    Consumed.zero.any = false := by
  refine ⟨?_, ?_, rfl, rfl⟩
  · have h := (claim_C6_take (State.new 0 ['a', 'b', 'c', 'd', 'e', 'f'])
      ['a', 'b', 'c']).1 ['d', 'e', 'f'] rfl
    exact h
  · refine (claim_C6_take (State.new 0 ['x', 'y', 'z']) ['a', 'b', 'c']).2.1 ?_
    rintro ⟨s, h⟩
    have h0 := congrArg List.head? h
    simp only [List.cons_append, List.head?_cons, Option.some.injEq] at h0
    exact absurd h0 (by decide)

/-- C7.  Termination: under the classifier contract, the token
sequence is finite — the iterator reaches its end-of-stream result
within `input.length + 1` pulls — and the number of tokens is at most
the input's character count. -/
theorem claim_C7_termination {R T : Type} (att : R → Nat → T × Nat) (f : State → R × State)
    (input : List Char)
    (hatt : ∀ r n, (att r n).2 = n)
    (hfwd : ∀ st : State, (f st).2.input <:+ st.input)
    (hprog : ∀ st : State, st.input ≠ [] → (f st).2.input ≠ st.input) :
    ∃ toks, scan att f (input.length + 1) input = .done toks ∧
      toks.length ≤ input.length := by
  obtain ⟨toks, _, hdone, hlen, _, _⟩ :=
    scan_run att f hatt hfwd hprog input.length input (Nat.le_refl _)
  exact ⟨toks, hdone, hlen⟩

theorem claim_C7_witness :
    ∃ toks,
      scan (attachResult (fun _ : Error => '?')) bumpOne 3 ['a', 'b'] = .done toks ∧
      toks.length ≤ (['a', 'b'] : List Char).length :=
  claim_C7_termination (attachResult (fun _ : Error => '?')) bumpOne ['a', 'b']
    (attachResult_snd _) bumpOne_fwd bumpOne_prog

/-- C8.  Empty-literal edge case: every remaining input starts with
the empty literal, yet `take` of the empty literal consumes nothing
and returns the zero record, whose `any` is false — indistinguishable
from a failed match. -/
theorem claim_C8_empty_literal (st : State) :
    ([] : List Char).isPrefixOf st.input = true ∧
    State.take st [] = some (Consumed.zero, st) ∧
    Consumed.zero.any = false := by
  obtain ⟨ptr, input⟩ := st
  cases input with
  | nil => exact ⟨rfl, rfl, rfl⟩
  | cons c cs => exact ⟨rfl, rfl, rfl⟩

/-- C9.  Single extraction does not advance the caller's cursor: in
this embedding `wrap` is a pure function of the state it receives by
value (the `Copy` snapshot), so the caller's state is untouched by
construction; the theorem shows the attached length is the complete
record of progress — consuming it from the caller's unchanged state
(as examples/lexer_struct.rs does with `self.state.consume(len)`)
lands exactly on the classifier's final remaining input. -/
theorem claim_C9_frame {R Out : Type} (att : R → Nat → Out) (f : State → R × State)
    (st : State) (hne : st.input ≠ [])
    (hsuf : (f st).2.input <:+ st.input) (hneq : (f st).2.input ≠ st.input) :
    ∃ len, wrap att f st = .token (att (f st).1 len) ∧ 0 < len ∧
      st.consume len = some (State.new (st.ptr + len) ((f st).2.input)) := by
  obtain ⟨p, hp⟩ := hsuf
  have hpne : p ≠ [] := by
    intro h0
    subst h0
    exact hneq (by simpa using hp)
  have hcc := congrArg utf8Len hp
  rw [utf8Len_append] at hcc
  have hppos := utf8Len_pos hpne
  refine ⟨utf8Len p, ?_, hppos, ?_⟩
  · have hwrap := wrap_token_eq att f st hne (by omega) (by omega)
    rw [show utf8Len st.input - utf8Len (f st).2.input = utf8Len p by omega] at hwrap
    exact hwrap
  · simp only [State.consume]
    rw [show st.input = p ++ (f st).2.input from hp.symm, dropBytes_append]
    rfl

theorem claim_C9_witness :
    ∃ len,
      wrap (attachResult (fun _ : Error => '?')) bumpOne (State.new 0 ['a', 'b']) =
        .token (attachResult (fun _ : Error => '?')
          (bumpOne (State.new 0 ['a', 'b'])).1 len) ∧
      0 < len ∧
      (State.new 0 ['a', 'b']).consume len =
        some (State.new ((State.new 0 ['a', 'b']).ptr + len)
          ((bumpOne (State.new 0 ['a', 'b'])).2.input)) :=
  claim_C9_frame (attachResult (fun _ : Error => '?')) bumpOne (State.new 0 ['a', 'b'])
    (List.cons_ne_nil 'a' ['b']) (bumpOne_fwd _)
    (bumpOne_prog _ (List.cons_ne_nil 'a' ['b']))

/-- C10.  Partiality of the sequence adapters: a yielded length is
admissible exactly when it splits the remaining input on a code-point
boundary (equivalently, it is at most the remaining byte length and
lands on a boundary); under that precondition the slice step yields
exactly the next `len` bytes, and a violating length makes the
slicing step of both `string_slices` and `into_iter` fatal. -/
theorem claim_C10_adapters {T : Type} (t : T) (len : Nat) (input : List Char)
    (toks : List (T × Nat)) :
    ((dropBytes len input).isSome ↔ ∃ p s, input = p ++ s ∧ utf8Len p = len) ∧
    (∀ p s, input = p ++ s → utf8Len p = len →
      string_slices input ((t, len) :: toks) =
        (string_slices s toks).map (fun l => (t, p) :: l)) ∧
    (dropBytes len input = none →
      string_slices input ((t, len) :: toks) = none ∧
      ∀ (F : List Char → WrapRes (T × Nat)) (fuel : Nat),
        F input = .token (t, len) →
          into_iter Prod.snd F (fuel + 1) input = .fatal) := by
  refine ⟨⟨?_, ?_⟩, ?_, ?_⟩
  · intro h
    rw [Option.isSome_iff_exists] at h
    obtain ⟨s, hs⟩ := h
    obtain ⟨p, hp, hl⟩ := dropBytes_eq_some.mp hs
    exact ⟨p, s, hp, hl⟩
  · rintro ⟨p, s, rfl, rfl⟩
    rw [dropBytes_append]
    rfl
  · intro p s hps hl
    subst hps
    subst hl
    exact string_slices_cons t p s toks
  · intro hnone
    constructor
    · simp only [string_slices, hnone]
      rcases takeBytes len input with _ | sl <;> rfl
    · intro F fuel hF
      rw [into_iter_succ, hF]
      simp [hnone]

theorem claim_C10_witness :
    string_slices ['a'] [((0 : Nat), 2)] = none ∧
    into_iter Prod.snd (fun _ => WrapRes.token ((0 : Nat), 2)) 1 ['a'] = .fatal := by
  have h := (claim_C10_adapters (0 : Nat) 2 ['a'] []).2.2 rfl
  exact ⟨h.1, h.2 (fun _ => WrapRes.token ((0 : Nat), 2)) 0 rfl⟩

end RowanTools
